import Mathlib

/-!
Verification of `translate_epub_to_docx.py` (EPUB → translated DOCX pipeline).

Strings are modelled as `List Char`; Python `str.strip()` becomes `pyStrip`,
`str.lower()` becomes `toLowerList` (ASCII lowering, which agrees with Python
on every character the marker comparisons can reach), `str.splitlines()`
becomes `splitOnNl`.  Each Lean definition mirrors the Python function of the
same (or clearly derived) name.
-/

set_option autoImplicit false

namespace EpubTrans

/-- Python whitespace for `str.strip()` / `\s` (ASCII portion, which is all the
pipeline's delimiters and markers use). -/
def isPySpace (c : Char) : Bool :=
  c = ' ' || c = '\t' || c = '\n' || c = '\r' || c = '\x0b' || c = '\x0c'

/-- Left part of Python `str.strip()`. -/
def stripLeft (l : List Char) : List Char := l.dropWhile isPySpace

/-- Right part of Python `str.strip()`. -/
def stripRight (l : List Char) : List Char := (l.reverse.dropWhile isPySpace).reverse

/-- Python `str.strip()`. -/
def pyStrip (l : List Char) : List Char := stripRight (stripLeft l)

/-- ASCII `str.lower()` applied characterwise. -/
def toLowerList (l : List Char) : List Char := l.map Char.toLower

/-- `m` is a leading run of `l` (Python `str.startswith`). -/
def leadsWith : List Char → List Char → Bool
  | [], _ => true
  | _ :: _, [] => false
  | a :: ms, b :: ls => a == b && leadsWith ms ls

/-- Case-insensitive `leadsWith`, used for the regex tag literals
(`re.IGNORECASE`). -/
def leadsWithCI (m l : List Char) : Bool := leadsWith (toLowerList m) (toLowerList l)

/-- `INFERENCE_PREFIXES` from the source (the tuple of reasoning/echo line
markers). -/
def inferenceMarkers : List (List Char) :=
  ["思考".data, "推理".data, "分析".data, "reasoning".data, "analysis".data,
   "thought".data, "original".data, "source".data, "translation".data]

/-- Python `str.splitlines()` restricted to `'\n'` boundaries (the only line
separator the cleaning protocol distinguishes; other boundary characters are
whitespace and are removed by the per-line strip in any case). -/
def splitOnNl : List Char → List (List Char)
  | [] => [[]]
  | c :: rest =>
    if c = '\n' then [] :: splitOnNl rest
    else
      match splitOnNl rest with
      | [] => [[c]]
      | l :: ls => (c :: l) :: ls

/-- Join lines with `"\n"` (Python `"\n".join`). -/
def joinNl : List (List Char) → List Char
  | [] => []
  | [l] => l
  | l :: ls => l ++ '\n' :: joinNl ls

/-- The line-filtering fallback of `extract_translation_only`: strip each
line, drop blank lines and lines whose lowercase form starts with an
inference marker, join the survivors with `"\n"`, and strip the result. -/
def cleanLines (raw : List Char) : List Char :=
  pyStrip (joinNl (((splitOnNl raw).map pyStrip).filter
    (fun s => !s.isEmpty && !(inferenceMarkers.any (fun m => leadsWith m (toLowerList s))))))

/-- `"<translation>"` literal of `TRANSLATION_TAG_RE`. -/
def openTagL : List Char := "<translation>".data

/-- `"</translation>"` literal of `TRANSLATION_TAG_RE`. -/
def closeTagL : List Char := "</translation>".data

/-- Scan for the earliest case-insensitive close tag and return the characters
before it (the lazy `(.*?)` group), or `none` if no close tag occurs. -/
def grabContent : List Char → Option (List Char)
  | [] => none
  | c :: rest =>
    if leadsWithCI closeTagL (c :: rest) then some []
    else
      match grabContent rest with
      | some g => some (c :: g)
      | none => none

/-- `TRANSLATION_TAG_RE.search`: leftmost case-insensitive open tag that is
followed by a close tag; returns the lazy group between them. -/
def tagSearch : List Char → Option (List Char)
  | [] => none
  | c :: rest =>
    if leadsWithCI openTagL (c :: rest) then
      match grabContent ((c :: rest).drop openTagL.length) with
      | some g => some g
      | none => tagSearch rest
    else tagSearch rest

/-- `extract_translation_only(raw)` from the source. -/
def extract_translation_only (raw : List Char) : List Char :=
  if raw = [] then []
  else
    match tagSearch raw with
    | some g =>
      let candidate := pyStrip g
      if candidate ≠ [] then candidate else cleanLines raw
    | none => cleanLines raw

/-- The use of the cleaner inside `_translate_once`: the raw response field is
stripped, cleaned, and an empty cleaning result falls back to the original
input text (`cleaned or text`). -/
def cleanResponse (raw text : List Char) : List Char :=
  let cleaned := extract_translation_only (pyStrip raw)
  if cleaned = [] then text else cleaned

theorem cleanLines_nil : cleanLines [] = [] := by decide

theorem extract_of_tag {raw g : List Char} (h : tagSearch raw = some g)
    (hne : pyStrip g ≠ []) : extract_translation_only raw = pyStrip g := by
  cases raw with
  | nil => simp [tagSearch] at h
  | cons c rest =>
    simp [extract_translation_only, h, hne]

theorem extract_of_tag_blank {raw g : List Char} (h : tagSearch raw = some g)
    (hb : pyStrip g = []) : extract_translation_only raw = cleanLines raw := by
  cases raw with
  | nil => simp [tagSearch] at h
  | cons c rest =>
    simp only [extract_translation_only, reduceCtorEq, if_false, h, hb]
    simp

theorem extract_of_no_tag {raw : List Char} (h : tagSearch raw = none) :
    extract_translation_only raw = cleanLines raw := by
  cases raw with
  | nil => simp [extract_translation_only, cleanLines_nil]
  | cons c rest => simp only [extract_translation_only, reduceCtorEq, if_false, h]

/-- C1 (amended: the English reasoning/echo markers in the code are
"reasoning", "analysis", "thought", "original", "source", "translation" —
"thought" rather than the claim's "thinking").  The cleaning protocol:
(1) a non-blank trimmed delimiter-pair payload is used verbatim; (2) with no
delimiter match (or a blank payload) the response is cleaned line by line,
dropping blank lines and marker-led lines; (3) an empty cleaning result falls
back to the original source text, so a non-empty source never yields an empty
translation; and the two concrete examples from the claim. -/
theorem claim1_response_cleaning :
    (∀ raw g, tagSearch raw = some g → pyStrip g ≠ [] →
      extract_translation_only raw = pyStrip g) ∧
    (∀ raw g, tagSearch raw = some g → pyStrip g = [] →
      extract_translation_only raw = cleanLines raw) ∧
    (∀ raw, tagSearch raw = none → extract_translation_only raw = cleanLines raw) ∧
    (∀ raw text, extract_translation_only (pyStrip raw) = [] → cleanResponse raw text = text) ∧
    (∀ raw text, text ≠ [] → cleanResponse raw text ≠ []) ∧
    cleanResponse "思考: foo\n<translation>你好</translation>".data "src".data = "你好".data ∧
    cleanResponse "Reasoning: blah\n你好世界".data "src".data = "你好世界".data := by
  refine ⟨fun raw g h hne => extract_of_tag h hne,
    fun raw g h hb => extract_of_tag_blank h hb,
    fun raw h => extract_of_no_tag h,
    fun raw text h => by simp [cleanResponse, h],
    fun raw text h => ?_, by decide, by decide⟩
  by_cases hc : extract_translation_only (pyStrip raw) = [] <;>
    simp [cleanResponse, hc, h]

/-- Witness for `claim1_response_cleaning`: the delimiter-payload branch at a
concrete raw response. -/
theorem claim1_response_cleaning_witness :
    extract_translation_only "<translation> hi </translation>".data = "hi".data :=
  claim1_response_cleaning.1 "<translation> hi </translation>".data " hi ".data
    (by decide) (by decide)

/-- Counterexample for C1 as stated: the claim names "thinking" as a known
English reasoning/echo marker, but the code's marker is "thought"; on the raw
response `"thinking: foo\n你好"` the claimed protocol would discard the first
line and yield `"你好"`, while the code keeps both lines. -/
theorem claim1_thinking_marker_counterexample :
    extract_translation_only "thinking: foo\n你好".data ≠ "你好".data ∧
    extract_translation_only "thinking: foo\n你好".data = "thinking: foo\n你好".data := by
  constructor <;> decide

/-- The sentence-terminator class of `SENTENCE_SPLIT_RE`
(`(?<=[.!?。！？])\s+`). -/
def isTermChar (c : Char) : Bool :=
  c = '.' || c = '!' || c = '?' || c = '。' || c = '！' || c = '？'

/-- Whether a (reversed) accumulator's most recent character is a sentence
terminator (the regex's look-behind). -/
def headIsTerm : List Char → Bool
  | [] => false
  | c :: _ => isTermChar c

/-- `re.split(SENTENCE_SPLIT_RE, text)` by direct scanning.  The accumulator
holds the current part reversed; `inSep` records being inside a `\s+`
separator run (entered at a whitespace character whose predecessor is a
terminator, left at the first non-whitespace character, which starts the next
part).  A run that reaches the end of the input leaves a trailing empty part,
exactly as `re.split` does. -/
def splitAux : List Char → List Char → Bool → List (List Char)
  | [], acc, inSep => [if inSep then [] else acc.reverse]
  | c :: rest, acc, inSep =>
    if inSep then
      if isPySpace c then splitAux rest acc true
      else splitAux rest [c] false
    else
      if isPySpace c && headIsTerm acc then
        acc.reverse :: splitAux rest [] true
      else splitAux rest (c :: acc) false

/-- The sentence-candidate list of `split_text`. -/
def sentence_split (text : List Char) : List (List Char) := splitAux text [] false

/-- The greedy packing loop of `split_text`: skip empty parts; merge a part
into the buffer when it fits within `max_chars` (joined by one space and
stripped); otherwise flush a non-empty buffer and restart it with the part;
flush the remaining buffer at the end. -/
def pack (mc : Nat) : List (List Char) → List Char → List (List Char)
  | [], buf => if buf.isEmpty then [] else [buf]
  | p :: ps, buf =>
    if p.isEmpty then pack mc ps buf
    else if buf.length + p.length + 1 ≤ mc then pack mc ps (pyStrip (buf ++ ' ' :: p))
    else if buf.isEmpty then pack mc ps p
    else buf :: pack mc ps p

/-- `split_text(text, max_chars)` from the source. -/
def split_text (text : List Char) (mc : Nat) : List (List Char) :=
  pack mc (sentence_split text) []

theorem dropWhile_length_le (p : Char → Bool) (l : List Char) :
    (l.dropWhile p).length ≤ l.length := by
  induction l with
  | nil => simp
  | cons a l ih =>
    by_cases h : p a
    · simp [List.dropWhile_cons, h]; omega
    · simp [List.dropWhile_cons, h]

theorem stripLeft_length_le (l : List Char) : (stripLeft l).length ≤ l.length :=
  dropWhile_length_le _ _

theorem stripRight_length_le (l : List Char) : (stripRight l).length ≤ l.length := by
  unfold stripRight
  calc (l.reverse.dropWhile isPySpace).reverse.length
      = (l.reverse.dropWhile isPySpace).length := by rw [List.length_reverse]
    _ ≤ l.reverse.length := dropWhile_length_le _ _
    _ = l.length := List.length_reverse l

theorem pyStrip_length_le (l : List Char) : (pyStrip l).length ≤ l.length :=
  le_trans (stripRight_length_le _) (stripLeft_length_le _)

theorem pack_sizes (mc : Nat) (parts0 : List (List Char)) :
    ∀ (ps : List (List Char)) (buf : List Char),
      (∀ p ∈ ps, p ∈ parts0) → (buf = [] ∨ buf.length ≤ mc ∨ buf ∈ parts0) →
      ∀ c ∈ pack mc ps buf, c.length ≤ mc ∨ c ∈ parts0 := by
  intro ps
  induction ps with
  | nil =>
    intro buf _ hbuf c hc
    by_cases hb : buf.isEmpty <;> simp [pack, hb] at hc
    subst hc
    rcases hbuf with h | h | h
    · simp [h] at hb
    · exact Or.inl h
    · exact Or.inr h
  | cons p ps ih =>
    intro buf hps hbuf c hc
    by_cases hp : p.isEmpty
    · exact ih buf (fun q hq => hps q (List.mem_cons_of_mem _ hq)) hbuf c
        (by simpa [pack, hp] using hc)
    · by_cases hfit : buf.length + p.length + 1 ≤ mc
      · refine ih (pyStrip (buf ++ ' ' :: p)) (fun q hq => hps q (List.mem_cons_of_mem _ hq))
          (Or.inr (Or.inl ?_)) c (by simpa [pack, hp, hfit] using hc)
        calc (pyStrip (buf ++ ' ' :: p)).length ≤ (buf ++ ' ' :: p).length :=
              pyStrip_length_le _
          _ = buf.length + p.length + 1 := by simp [List.length_append]; omega
          _ ≤ mc := hfit
      · have hpmem : p ∈ parts0 := hps p (List.mem_cons_self _ _)
        by_cases hb : buf.isEmpty
        · exact ih p (fun q hq => hps q (List.mem_cons_of_mem _ hq)) (Or.inr (Or.inr hpmem)) c
            (by simpa [pack, hp, hfit, hb] using hc)
        · have hc' : c = buf ∨ c ∈ pack mc ps p := by
            simpa [pack, hp, hfit, hb] using hc
          rcases hc' with hceq | hcm
          · subst hceq
            rcases hbuf with h | h | h
            · simp [h] at hb
            · exact Or.inl h
            · exact Or.inr h
          · exact ih p (fun q hq => hps q (List.mem_cons_of_mem _ hq))
              (Or.inr (Or.inr hpmem)) c hcm

/-- C4: every chunk produced by `split_text` has length at most `max_chars`,
except that an over-budget chunk is always one whole sentence candidate of the
input (a single sentence longer than `max_chars` is kept whole, never cut). -/
theorem claim4_chunk_size_bound (text : List Char) (mc : Nat) (c : List Char)
    (hc : c ∈ split_text text mc) : c.length ≤ mc ∨ c ∈ sentence_split text :=
  pack_sizes mc (sentence_split text) (sentence_split text) [] (fun _ h => h)
    (Or.inl rfl) c hc

/-- Witness for `claim4_chunk_size_bound` at a concrete input. -/
theorem claim4_chunk_size_bound_witness :
    "Hi.".data ∈ split_text "Hi. Yo.".data 3 ∧
      ("Hi.".data.length ≤ 3 ∨ "Hi.".data ∈ sentence_split "Hi. Yo.".data) :=
  ⟨by decide, claim4_chunk_size_bound "Hi. Yo.".data 3 "Hi.".data (by decide)⟩

/-- The list begins with a non-whitespace character. -/
def headNSb : List Char → Bool
  | [] => false
  | c :: _ => !isPySpace c

/-- The list ends with a non-whitespace character. -/
def endsNSb (l : List Char) : Bool := headNSb l.reverse

theorem headNSb_append_left {A : List Char} (B : List Char) (hA : A ≠ []) :
    headNSb (A ++ B) = headNSb A := by
  cases A with
  | nil => exact absurd rfl hA
  | cons a A => rfl

theorem endsNSb_append_right (A : List Char) {B : List Char} (hB : B ≠ []) :
    endsNSb (A ++ B) = endsNSb B := by
  unfold endsNSb
  rw [List.reverse_append]
  exact headNSb_append_left _ (by simpa using hB)

theorem stripLeft_cons (c : Char) (l : List Char) :
    stripLeft (c :: l) = if isPySpace c then stripLeft l else c :: l := by
  by_cases h : isPySpace c <;> simp [stripLeft, List.dropWhile_cons, h]

theorem stripLeft_of_headNS {l : List Char} (h : headNSb l = true) : stripLeft l = l := by
  cases l with
  | nil => rfl
  | cons c l =>
    have : isPySpace c = false := by simpa [headNSb] using h
    simp [stripLeft_cons, this]

theorem stripRight_reverse_def (l : List Char) :
    stripRight l = (stripLeft l.reverse).reverse := rfl

theorem stripLeft_reverse_eq (l : List Char) :
    stripLeft l.reverse = (stripRight l).reverse := by
  rw [stripRight_reverse_def, List.reverse_reverse]

theorem stripRight_of_endsNS {l : List Char} (h : endsNSb l = true) : stripRight l = l := by
  rw [stripRight_reverse_def, stripLeft_of_headNS h, List.reverse_reverse]

theorem headNSb_stripLeft (l : List Char) :
    stripLeft l = [] ∨ headNSb (stripLeft l) = true := by
  induction l with
  | nil => exact Or.inl rfl
  | cons c l ih =>
    by_cases h : isPySpace c
    · simpa [stripLeft_cons, h] using ih
    · right; simp [stripLeft_cons, h, headNSb]

theorem endsNSb_cons_of_ne {c : Char} {l : List Char} (hl : l ≠ []) :
    endsNSb (c :: l) = endsNSb l := by
  unfold endsNSb
  rw [List.reverse_cons]
  exact headNSb_append_left _ (by simpa using hl)

theorem stripLeft_ne_nil_of_endsNS {l : List Char} (h : endsNSb l = true) :
    stripLeft l ≠ [] := by
  induction l with
  | nil => simp [endsNSb, headNSb] at h
  | cons c l ih =>
    by_cases hc : isPySpace c
    · have hl : l ≠ [] := by
        rintro rfl
        simp [endsNSb, headNSb, hc] at h
      have h' : endsNSb l = true := by rw [← endsNSb_cons_of_ne (c := c) hl]; exact h
      simpa [stripLeft_cons, hc] using ih h'
    · simp [stripLeft_cons, hc]

theorem endsNSb_stripLeft_of_endsNS {l : List Char} (h : endsNSb l = true) :
    endsNSb (stripLeft l) = true := by
  induction l with
  | nil => simp [endsNSb, headNSb] at h
  | cons c l ih =>
    by_cases hc : isPySpace c
    · have hl : l ≠ [] := by
        rintro rfl
        simp [endsNSb, headNSb, hc] at h
      have h' : endsNSb l = true := by rw [← endsNSb_cons_of_ne (c := c) hl]; exact h
      simpa [stripLeft_cons, hc] using ih h'
    · simpa [stripLeft_cons, hc] using h

theorem endsNSb_reverse (l : List Char) : endsNSb l.reverse = headNSb l := by
  unfold endsNSb
  rw [List.reverse_reverse]

theorem stripLeft_append_of_ne {A : List Char} (B : List Char) (hA : stripLeft A ≠ []) :
    stripLeft (A ++ B) = stripLeft A ++ B := by
  induction A with
  | nil => exact absurd rfl hA
  | cons c A ih =>
    by_cases hc : isPySpace c
    · have hA' : stripLeft A ≠ [] := by simpa [stripLeft_cons, hc] using hA
      simp only [List.cons_append, stripLeft_cons, hc, if_true]
      exact ih hA'
    · simp [stripLeft_cons, hc]

theorem stripRight_ne_nil_iff (B : List Char) : stripRight B ≠ [] ↔ stripLeft B.reverse ≠ [] := by
  rw [stripRight_reverse_def]
  simp

theorem stripRight_append_of_ne (A : List Char) {B : List Char} (hB : stripRight B ≠ []) :
    stripRight (A ++ B) = A ++ stripRight B := by
  have hB' : stripLeft B.reverse ≠ [] := (stripRight_ne_nil_iff B).mp hB
  rw [stripRight_reverse_def, List.reverse_append, stripLeft_append_of_ne _ hB',
    List.reverse_append, List.reverse_reverse, ← stripRight_reverse_def]

theorem stripRight_ne_nil_of_headNS {B : List Char} (hB : headNSb B = true) :
    stripRight B ≠ [] := by
  rw [stripRight_ne_nil_iff]
  exact stripLeft_ne_nil_of_endsNS (by rw [endsNSb_reverse]; exact hB)

/-- The key joining fact: stripping a one-space join of a right-anchored and a
left-anchored string strips each side independently. -/
theorem pyStrip_append_space {A B : List Char} (hA : endsNSb A = true)
    (hB : headNSb B = true) :
    pyStrip (A ++ ' ' :: B) = pyStrip A ++ ' ' :: pyStrip B := by
  have hXne : stripLeft A ≠ [] := stripLeft_ne_nil_of_endsNS hA
  have hXends : endsNSb (stripLeft A) = true := endsNSb_stripLeft_of_endsNS hA
  have hSRB : stripRight B ≠ [] := stripRight_ne_nil_of_headNS hB
  have hcons : stripRight (' ' :: B) = ' ' :: stripRight B := by
    simpa using stripRight_append_of_ne [' '] hSRB
  have hconsne : stripRight (' ' :: B) ≠ [] := by simp [hcons]
  calc pyStrip (A ++ ' ' :: B)
      = stripRight (stripLeft A ++ ' ' :: B) := by
        unfold pyStrip
        rw [stripLeft_append_of_ne _ hXne]
    _ = stripLeft A ++ stripRight (' ' :: B) := stripRight_append_of_ne _ hconsne
    _ = stripLeft A ++ ' ' :: stripRight B := by rw [hcons]
    _ = pyStrip A ++ ' ' :: pyStrip B := by
        unfold pyStrip
        rw [stripRight_of_endsNS hXends, stripLeft_of_headNS hB]

theorem pyStrip_cons_space {c : Char} (l : List Char) (hc : isPySpace c = true) :
    pyStrip (c :: l) = pyStrip l := by
  unfold pyStrip
  rw [stripLeft_cons, if_pos hc]

theorem stripRight_append_decomp (X : List Char) :
    X = stripRight X ++ (X.reverse.takeWhile isPySpace).reverse := by
  conv_lhs => rw [← List.reverse_reverse X,
    ← List.takeWhile_append_dropWhile (p := isPySpace) (l := X.reverse)]
  rw [List.reverse_append]
  rfl

theorem headNSb_stripRight {X : List Char} (h : stripRight X ≠ []) :
    headNSb (stripRight X) = headNSb X := by
  conv_rhs => rw [stripRight_append_decomp X]
  rw [headNSb_append_left _ h]

theorem pyStrip_head_ends {l : List Char} (h : pyStrip l ≠ []) :
    headNSb (pyStrip l) = true ∧ endsNSb (pyStrip l) = true := by
  have hX : pyStrip l = stripRight (stripLeft l) := rfl
  constructor
  · rw [hX, headNSb_stripRight (by rw [← hX]; exact h)]
    rcases headNSb_stripLeft l with h0 | h0
    · exact absurd (by rw [hX, h0]; rfl) h
    · exact h0
  · rw [hX, stripRight_reverse_def, endsNSb_reverse]
    rcases headNSb_stripLeft (stripLeft l).reverse with h0 | h0
    · exact absurd (by rw [hX, stripRight_reverse_def, h0]; rfl) h
    · exact h0

theorem pyStrip_idem (l : List Char) : pyStrip (pyStrip l) = pyStrip l := by
  by_cases h : pyStrip l = []
  · rw [h]; rfl
  · obtain ⟨hh, he⟩ := pyStrip_head_ends h
    rw [show pyStrip (pyStrip l) = stripRight (stripLeft (pyStrip l)) from rfl,
      stripLeft_of_headNS hh, stripRight_of_endsNS he]

theorem pyStrip_ne_nil_of_headNS {B : List Char} (hB : headNSb B = true) :
    pyStrip B ≠ [] := by
  rw [show pyStrip B = stripRight (stripLeft B) from rfl, stripLeft_of_headNS hB]
  exact stripRight_ne_nil_of_headNS hB

theorem pyStrip_ne_nil_of_endsNS {A : List Char} (hA : endsNSb A = true) :
    pyStrip A ≠ [] := by
  rw [show pyStrip A = stripRight (stripLeft A) from rfl,
    stripRight_of_endsNS (endsNSb_stripLeft_of_endsNS hA)]
  exact stripLeft_ne_nil_of_endsNS hA

/-- Joining two already-stripped fragments with one space, treating an empty
side as the identity. -/
def joinSp (a b : List Char) : List Char :=
  if a = [] then b else if b = [] then a else a ++ ' ' :: b

/-- Strip every element and drop the blank ones. -/
def stripNE (ps : List (List Char)) : List (List Char) :=
  (ps.map pyStrip).filter (fun p => !p.isEmpty)

/-- Join a list of fragments with single spaces. -/
def joinSpace : List (List Char) → List Char
  | [] => []
  | [p] => p
  | p :: ps => p ++ ' ' :: joinSpace ps

/-- Whitespace-normalized sentence content of a fragment list. -/
def normContent (ps : List (List Char)) : List Char := joinSpace (stripNE ps)

theorem joinSpace_ne_nil {M : List (List Char)} (hM : ∀ p ∈ M, p ≠ []) (h : M ≠ []) :
    joinSpace M ≠ [] := by
  cases M with
  | nil => exact absurd rfl h
  | cons p M =>
    cases M with
    | nil => exact hM p (List.mem_cons_self _ _)
    | cons q M => simp [joinSpace]

theorem stripNE_ne_nil (ps : List (List Char)) : ∀ p ∈ stripNE ps, p ≠ [] := by
  intro p hp
  have := List.of_mem_filter hp
  simpa using this

theorem normContent_nil : normContent [] = [] := rfl

theorem joinSp_nil_left (b : List Char) : joinSp [] b = b := rfl

theorem joinSpace_cons (p : List Char) (M : List (List Char)) :
    joinSpace (p :: M) = if M = [] then p else p ++ ' ' :: joinSpace M := by
  cases M with
  | nil => rfl
  | cons q M => rfl

theorem normContent_cons (x : List Char) (L : List (List Char)) :
    normContent (x :: L) = joinSp (pyStrip x) (normContent L) := by
  unfold normContent
  by_cases hx : pyStrip x = []
  · have hfil : stripNE (x :: L) = stripNE L := by
      simp [stripNE, List.filter_cons, hx]
    rw [hfil, hx, joinSp_nil_left]
  · have hfil : stripNE (x :: L) = pyStrip x :: stripNE L := by
      simp [stripNE, List.filter_cons, hx]
    rw [hfil, joinSpace_cons]
    by_cases hL : stripNE L = []
    · rw [if_pos hL, hL, show joinSpace ([] : List (List Char)) = [] from rfl]
      simp [joinSp, hx]
    · have hjoin : joinSpace (stripNE L) ≠ [] := joinSpace_ne_nil (stripNE_ne_nil L) hL
      rw [if_neg hL]
      simp [joinSp, hx, hjoin]

theorem joinSp_assoc {A B : List Char} (hA : A ≠ []) (hB : B ≠ []) (C : List Char) :
    joinSp (A ++ ' ' :: B) C = joinSp A (joinSp B C) := by
  by_cases hC : C = []
  · simp [joinSp, hA, hB, hC]
  · simp [joinSp, hA, hB, hC, List.append_assoc]

/-- Invariant of the packing loop: whatever the budget decides, the
whitespace-normalized content of the produced chunks equals that of the buffer
followed by the remaining sentence parts.  The hypotheses record the shape of
`re.split` output: every remaining part is empty or starts with non-whitespace,
every non-final part ends with non-whitespace, and the buffer is empty,
right-anchored, or final. -/
theorem pack_normContent (mc : Nat) :
    ∀ (ps : List (List Char)) (buf : List Char),
      (∀ p ∈ ps, p = [] ∨ headNSb p = true) →
      (∀ p ∈ ps.dropLast, endsNSb p = true) →
      (buf = [] ∨ endsNSb buf = true ∨ ps = []) →
      normContent (pack mc ps buf) = joinSp (pyStrip buf) (normContent ps) := by
  intro ps
  induction ps with
  | nil =>
    intro buf _ _ _
    rw [show pack mc [] buf = if buf.isEmpty then [] else [buf] from rfl]
    by_cases hb : buf.isEmpty
    · rw [if_pos hb, List.isEmpty_iff.mp hb]
      rfl
    · rw [if_neg hb, normContent_cons]
  | cons p ps ih =>
    intro buf hH hE hB
    have hBuf : buf = [] ∨ endsNSb buf = true := by
      rcases hB with h | h | h
      · exact Or.inl h
      · exact Or.inr h
      · exact absurd h (List.cons_ne_nil _ _)
    have hH' : ∀ q ∈ ps, q = [] ∨ headNSb q = true :=
      fun q hq => hH q (List.mem_cons_of_mem _ hq)
    have hE' : ∀ q ∈ ps.dropLast, endsNSb q = true := by
      intro q hq
      apply hE
      cases ps with
      | nil => simp at hq
      | cons r rs => exact List.mem_cons_of_mem _ hq
    rw [show pack mc (p :: ps) buf
        = if p.isEmpty then pack mc ps buf
          else if buf.length + p.length + 1 ≤ mc then pack mc ps (pyStrip (buf ++ ' ' :: p))
          else if buf.isEmpty then pack mc ps p
          else buf :: pack mc ps p from rfl]
    by_cases hp : p.isEmpty
    · rw [if_pos hp]
      have hpnil : p = [] := List.isEmpty_iff.mp hp
      rw [ih buf hH' hE' (hBuf.imp id Or.inl), normContent_cons, hpnil,
        show pyStrip ([] : List Char) = [] from rfl, joinSp_nil_left]
    · rw [if_neg hp]
      have hpne : p ≠ [] := by simpa [List.isEmpty_iff] using hp
      by_cases hfit : buf.length + p.length + 1 ≤ mc
      · rw [if_pos hfit]
        have hB' : pyStrip (buf ++ ' ' :: p) = [] ∨
            endsNSb (pyStrip (buf ++ ' ' :: p)) = true ∨ ps = [] := by
          by_cases h : pyStrip (buf ++ ' ' :: p) = []
          · exact Or.inl h
          · exact Or.inr (Or.inl (pyStrip_head_ends h).2)
        rw [ih _ hH' hE' hB', pyStrip_idem]
        rcases hBuf with hbe | hbe
        · subst hbe
          rw [show ([] : List Char) ++ ' ' :: p = ' ' :: p from rfl,
            pyStrip_cons_space _ (by decide), normContent_cons,
            show pyStrip ([] : List Char) = [] from rfl, joinSp_nil_left]
        · have hph : headNSb p = true := by
            rcases hH p (List.mem_cons_self _ _) with h | h
            · exact absurd h hpne
            · exact h
          rw [pyStrip_append_space hbe hph,
            joinSp_assoc (pyStrip_ne_nil_of_endsNS hbe) (pyStrip_ne_nil_of_headNS hph),
            normContent_cons]
      · rw [if_neg hfit]
        have hBp : p = [] ∨ endsNSb p = true ∨ ps = [] := by
          cases ps with
          | nil => exact Or.inr (Or.inr rfl)
          | cons r rs => exact Or.inr (Or.inl (hE p (List.mem_cons_self _ _)))
        by_cases hb : buf.isEmpty
        · rw [if_pos hb]
          have hbe : buf = [] := List.isEmpty_iff.mp hb
          subst hbe
          rw [ih p hH' hE' hBp, normContent_cons,
            show pyStrip ([] : List Char) = [] from rfl, joinSp_nil_left]
        · rw [if_neg hb, normContent_cons, ih p hH' hE' hBp, normContent_cons]

theorem isTermChar_not_space {c : Char} (h : isTermChar c = true) : isPySpace c = false := by
  unfold isTermChar at h
  simp only [Bool.or_eq_true, decide_eq_true_eq] at h
  rcases h with ((((h | h) | h) | h) | h) | h <;> subst h <;> decide

theorem dropLast_cons_ne {α : Type} (x : α) {L : List α} (h : L ≠ []) :
    (x :: L).dropLast = x :: L.dropLast := by
  cases L with
  | nil => exact absurd rfl h
  | cons y ys => rfl

theorem splitAux_ne_nil : ∀ (cs acc : List Char) (b : Bool), splitAux cs acc b ≠ [] := by
  intro cs
  induction cs with
  | nil => intro acc b; simp [splitAux]
  | cons c rest ih =>
    intro acc b
    cases b with
    | true =>
      by_cases h : isPySpace c
      · simpa [splitAux, h] using ih acc true
      · simpa [splitAux, h] using ih [c] false
    | false =>
      by_cases h : (isPySpace c && headIsTerm acc) = true
      · simp [splitAux, h]
      · simpa [splitAux, h] using ih (c :: acc) false

theorem splitAux_first : ∀ (cs acc : List Char),
    ∃ q qs, splitAux cs acc false = (acc.reverse ++ q) :: qs := by
  intro cs
  induction cs with
  | nil => exact fun acc => ⟨[], [], by simp [splitAux]⟩
  | cons c rest ih =>
    intro acc
    by_cases h : (isPySpace c && headIsTerm acc) = true
    · exact ⟨[], splitAux rest [] true, by simp [splitAux, h]⟩
    · obtain ⟨q, qs, hq⟩ := ih (c :: acc)
      refine ⟨c :: q, qs, ?_⟩
      rw [show splitAux (c :: rest) acc false = splitAux rest (c :: acc) false by
        simp [splitAux, h], hq]
      simp

theorem splitAux_good : ∀ cs : List Char,
    (∀ acc, (∀ p ∈ (splitAux cs acc false).tail, p = [] ∨ headNSb p = true) ∧
            (∀ p ∈ (splitAux cs acc false).dropLast, endsNSb p = true)) ∧
    (∀ acc, (∀ p ∈ splitAux cs acc true, p = [] ∨ headNSb p = true) ∧
            (∀ p ∈ (splitAux cs acc true).dropLast, endsNSb p = true)) := by
  intro cs
  induction cs with
  | nil =>
    constructor
    · intro acc
      constructor
      · intro p hp; simp [splitAux] at hp
      · intro p hp; simp [splitAux] at hp
    · intro acc
      constructor
      · intro p hp
        simp [splitAux] at hp
        exact Or.inl hp
      · intro p hp; simp [splitAux] at hp
  | cons c rest ih =>
    constructor
    · intro acc
      by_cases h : (isPySpace c && headIsTerm acc) = true
      · have hrw : splitAux (c :: rest) acc false = acc.reverse :: splitAux rest [] true := by
          simp [splitAux, h]
        constructor
        · intro p hp
          rw [hrw] at hp
          exact (ih.2 []).1 p hp
        · intro p hp
          rw [hrw, dropLast_cons_ne _ (splitAux_ne_nil rest [] true)] at hp
          rcases List.mem_cons.mp hp with hp | hp
          · subst hp
            rw [endsNSb_reverse]
            have hterm : headIsTerm acc = true := by
              simp only [Bool.and_eq_true] at h
              exact h.2
            cases acc with
            | nil => simp [headIsTerm] at hterm
            | cons a acc' =>
              have : isTermChar a = true := by simpa [headIsTerm] using hterm
              simp [headNSb, isTermChar_not_space this]
          · exact (ih.2 []).2 p hp
      · have hrw : splitAux (c :: rest) acc false = splitAux rest (c :: acc) false := by
          simp [splitAux, h]
        constructor
        · intro p hp
          rw [hrw] at hp
          exact (ih.1 (c :: acc)).1 p hp
        · intro p hp
          rw [hrw] at hp
          exact (ih.1 (c :: acc)).2 p hp
    · intro acc
      by_cases h : isPySpace c
      · have hrw : splitAux (c :: rest) acc true = splitAux rest acc true := by
          simp [splitAux, h]
        exact ⟨fun p hp => (ih.2 acc).1 p (by rwa [hrw] at hp),
          fun p hp => (ih.2 acc).2 p (by rwa [hrw] at hp)⟩
      · have hrw : splitAux (c :: rest) acc true = splitAux rest [c] false := by
          simp [splitAux, h]
        constructor
        · intro p hp
          rw [hrw] at hp
          obtain ⟨q, qs, hq⟩ := splitAux_first rest [c]
          rw [hq] at hp
          rcases List.mem_cons.mp hp with hp | hp
          · subst hp
            right
            simpa [headNSb] using h
          · exact (ih.1 [c]).1 p (by rw [hq]; exact hp)
        · intro p hp
          rw [hrw] at hp
          exact (ih.1 [c]).2 p hp

/-- C5: when no sentence candidate exceeds the budget, the chunks of
`split_text` carry exactly the sentence-level content of the input, in order —
no sentence lost, duplicated or reordered — up to normalization of
inter-sentence (and leading/trailing per-sentence) whitespace to one space. -/
theorem claim5_chunks_reconstruct_sentences (text : List Char) (mc : Nat)
    (_hshort : ∀ p ∈ sentence_split text, p.length ≤ mc) :
    normContent (split_text text mc) = normContent (sentence_split text) := by
  clear _hshort
  unfold split_text
  cases hps : sentence_split text with
  | nil => rfl
  | cons p1 rest =>
    have htail := ((splitAux_good text).1 []).1
    have hdrop := ((splitAux_good text).1 []).2
    rw [show splitAux text [] false = sentence_split text from rfl, hps] at htail hdrop
    have hH1 : ∀ q ∈ rest, q = [] ∨ headNSb q = true := fun q hq => htail q hq
    have hE1' : ∀ q ∈ rest.dropLast, endsNSb q = true := by
      intro q hq
      apply hdrop
      cases rest with
      | nil => simp at hq
      | cons r rs => exact List.mem_cons_of_mem _ hq
    rw [show pack mc (p1 :: rest) []
        = if p1.isEmpty then pack mc rest []
          else if ([] : List Char).length + p1.length + 1 ≤ mc then
            pack mc rest (pyStrip ([] ++ ' ' :: p1))
          else if ([] : List Char).isEmpty then pack mc rest p1
          else [] :: pack mc rest p1 from rfl]
    by_cases hp : p1.isEmpty
    · rw [if_pos hp, pack_normContent mc rest [] hH1 hE1' (Or.inl rfl), normContent_cons,
        List.isEmpty_iff.mp hp, show pyStrip ([] : List Char) = [] from rfl,
        joinSp_nil_left]
    · rw [if_neg hp]
      have hpne : p1 ≠ [] := by simpa [List.isEmpty_iff] using hp
      by_cases hfit : ([] : List Char).length + p1.length + 1 ≤ mc
      · rw [if_pos hfit]
        have hB' : pyStrip ([] ++ ' ' :: p1) = [] ∨
            endsNSb (pyStrip ([] ++ ' ' :: p1)) = true ∨ rest = [] := by
          by_cases h : pyStrip ([] ++ ' ' :: p1) = []
          · exact Or.inl h
          · exact Or.inr (Or.inl (pyStrip_head_ends h).2)
        rw [pack_normContent mc rest _ hH1 hE1' hB', pyStrip_idem,
          show ([] : List Char) ++ ' ' :: p1 = ' ' :: p1 from rfl,
          pyStrip_cons_space _ (by decide), normContent_cons]
      · rw [if_neg hfit, if_pos (show ([] : List Char).isEmpty = true from rfl)]
        have hBp : p1 = [] ∨ endsNSb p1 = true ∨ rest = [] := by
          cases rest with
          | nil => exact Or.inr (Or.inr rfl)
          | cons r rs => exact Or.inr (Or.inl (hdrop p1 (List.mem_cons_self _ _)))
        rw [pack_normContent mc rest p1 hH1 hE1' hBp, normContent_cons]

/-- Witness for `claim5_chunks_reconstruct_sentences` at a concrete input. -/
theorem claim5_chunks_reconstruct_sentences_witness :
    (∀ p ∈ sentence_split "Hi. Yo.".data, p.length ≤ 8) ∧
      normContent (split_text "Hi. Yo.".data 8) = normContent (sentence_split "Hi. Yo.".data) :=
  ⟨by decide, claim5_chunks_reconstruct_sentences "Hi. Yo.".data 8 (by decide)⟩

/-- Exact-key lookup in the translation cache (`self._cache.get(text)`): the
cache is an association list, most recent insertion first, keys compared for
character-for-character equality only. -/
def lookupC : List (List Char × List Char) → List Char → Option (List Char)
  | [], _ => none
  | (k, v) :: rest, s => if k = s then some v else lookupC rest s

/-- Chunkwise translation
(`"".join(self._translate_once(chunk) for chunk in chunks)`): chunks are
translated left to right and concatenated with no separator; `svc` abstracts
`_translate_once`, `none` marking the exception it raises after exhausting its
retries, which aborts the remaining chunks.  The second component counts the
`_translate_once` calls actually made. -/
def translateChunks (svc : List Char → Option (List Char)) :
    List (List Char) → Option (List Char) × Nat
  | [] => (some [], 0)
  | c :: cs =>
    match svc c with
    | none => (none, 1)
    | some t =>
      match translateChunks svc cs with
      | (none, n) => (none, n + 1)
      | (some restT, n) => (some (t ++ restT), n + 1)

/-- The single-or-chunked branch of `translate_text`. -/
def translateCore (svc : List Char → Option (List Char)) (mc : Nat) (text : List Char) :
    Option (List Char) × Nat :=
  if text.length ≤ mc then
    match svc text with
    | none => (none, 1)
    | some t => (some t, 1)
  else translateChunks svc (split_text text mc)

/-- Outcome of one `translate_text` call: the returned value (`none` models
the propagated exception), the cache afterwards, and how many
`_translate_once` calls were made. -/
structure TransResult where
  result : Option (List Char)
  cache : List (List Char × List Char)
  calls : Nat

/-- `OllamaTranslator.translate_text`: blank text returned unchanged; exact
cache hit returned with no service call; otherwise translate (single call or
chunked), and store a successful result under the original unsplit text; on
failure the exception propagates with the cache untouched. -/
def translate_text (svc : List Char → Option (List Char)) (mc : Nat)
    (cache : List (List Char × List Char)) (text : List Char) : TransResult :=
  if pyStrip text = [] then ⟨some text, cache, 0⟩
  else
    match lookupC cache text with
    | some v => ⟨some v, cache, 0⟩
    | none =>
      match translateCore svc mc text with
      | (none, n) => ⟨none, cache, n⟩
      | (some t, n) => ⟨some t, (text, t) :: cache, n⟩

theorem translate_text_blank {text : List Char} (svc : List Char → Option (List Char))
    (mc : Nat) (cache : List (List Char × List Char)) (h : pyStrip text = []) :
    translate_text svc mc cache text = ⟨some text, cache, 0⟩ := by
  simp [translate_text, h]

theorem translate_text_hit {text v : List Char} {cache : List (List Char × List Char)}
    (svc : List Char → Option (List Char)) (mc : Nat) (hS : pyStrip text ≠ [])
    (hC : lookupC cache text = some v) :
    translate_text svc mc cache text = ⟨some v, cache, 0⟩ := by
  simp [translate_text, hS, hC]

theorem translate_text_err {text : List Char} {cache : List (List Char × List Char)}
    {svc : List Char → Option (List Char)} {mc n : Nat} (hS : pyStrip text ≠ [])
    (hC : lookupC cache text = none) (hT : translateCore svc mc text = (none, n)) :
    translate_text svc mc cache text = ⟨none, cache, n⟩ := by
  simp [translate_text, hS, hC, hT]

theorem translate_text_ok {text t : List Char} {cache : List (List Char × List Char)}
    {svc : List Char → Option (List Char)} {mc n : Nat} (hS : pyStrip text ≠ [])
    (hC : lookupC cache text = none) (hT : translateCore svc mc text = (some t, n)) :
    translate_text svc mc cache text = ⟨some t, (text, t) :: cache, n⟩ := by
  simp [translate_text, hS, hC, hT]

theorem lookupC_cons_self (text t : List Char) (cache : List (List Char × List Char)) :
    lookupC ((text, t) :: cache) text = some t := by
  simp [lookupC]

theorem lookupC_mem : ∀ (cache : List (List Char × List Char)) (s v : List Char),
    lookupC cache s = some v → (s, v) ∈ cache := by
  intro cache
  induction cache with
  | nil => intro s v h; simp [lookupC] at h
  | cons kv rest ih =>
    intro s v h
    obtain ⟨k, w⟩ := kv
    by_cases hk : k = s
    · subst hk
      simp [lookupC] at h
      subst h
      exact List.mem_cons_self _ _
    · simp [lookupC, hk] at h
      exact List.mem_cons_of_mem _ (ih s v h)

/-- On any failing run the cache is left unchanged (insertion happens only
after a successful translation). -/
theorem translate_err_cache (svc : List Char → Option (List Char)) (mc : Nat)
    (cache : List (List Char × List Char)) (text : List Char)
    (h : (translate_text svc mc cache text).result = none) :
    (translate_text svc mc cache text).cache = cache := by
  by_cases hS : pyStrip text = []
  · rw [translate_text_blank svc mc cache hS]
  · cases hC : lookupC cache text with
    | some v => rw [translate_text_hit svc mc hS hC]
    | none =>
      rcases hT : translateCore svc mc text with ⟨r, n⟩
      cases r with
      | none => rw [translate_text_err hS hC hT]
      | some t => rw [translate_text_ok hS hC hT] at h; simp at h

/-- Every translation either leaves the cache unchanged or pushes exactly the
pair (original text, returned translation). -/
theorem translate_cache_shape (svc : List Char → Option (List Char)) (mc : Nat)
    (cache : List (List Char × List Char)) (text : List Char) :
    (translate_text svc mc cache text).cache = cache ∨
      ∃ t, (translate_text svc mc cache text).result = some t ∧
        (translate_text svc mc cache text).cache = (text, t) :: cache := by
  by_cases hS : pyStrip text = []
  · rw [translate_text_blank svc mc cache hS]; exact Or.inl rfl
  · cases hC : lookupC cache text with
    | some v => rw [translate_text_hit svc mc hS hC]; exact Or.inl rfl
    | none =>
      rcases hT : translateCore svc mc text with ⟨r, n⟩
      cases r with
      | none => rw [translate_text_err hS hC hT]; exact Or.inl rfl
      | some t => rw [translate_text_ok hS hC hT]; exact Or.inr ⟨t, rfl, rfl⟩

/-- C9: blank (empty or whitespace-only) text is returned unchanged, with zero
service calls and the cache untouched. -/
theorem claim9_blank_unchanged (svc : List Char → Option (List Char)) (mc : Nat)
    (cache : List (List Char × List Char)) (text : List Char) (h : pyStrip text = []) :
    translate_text svc mc cache text = ⟨some text, cache, 0⟩ :=
  translate_text_blank svc mc cache h

/-- Witness for `claim9_blank_unchanged` on a whitespace-only input. -/
theorem claim9_blank_unchanged_witness :
    translate_text (fun s => some s) 5 [] "   ".data = ⟨some "   ".data, [], 0⟩ :=
  claim9_blank_unchanged (fun s => some s) 5 [] "   ".data (by decide)

/-- Counterexample for C2 as stated: the claim's "calling translate_text twice
with the identical non-whitespace source string performs exactly one service
call" fails when the text is longer than `max_chars`: on `"Hi. Yo."` with
`max_chars = 3` the first call already performs two `_translate_once` calls
(one per chunk), so the two calls together perform two, not one. -/
theorem claim2_cache_counterexample :
    pyStrip "Hi. Yo.".data ≠ [] ∧
    (translate_text (fun s => some s) 3 [] "Hi. Yo.".data).calls
        + (translate_text (fun s => some s) 3
            ((translate_text (fun s => some s) 3 [] "Hi. Yo.".data).cache)
            "Hi. Yo.".data).calls ≠ 1 := by
  constructor
  · decide
  · decide

/-- C2 (amended: with text longer than `max_chars` the first call performs one
service call per chunk; the universally valid statement is that the second
call performs zero service calls and returns the cached value, and that the
two calls together perform exactly one service call whenever the text fits in
`max_chars`).  Conjuncts: (1) a cache lookup answers only for a
character-for-character equal stored key; (2) a failed translation leaves the
cache unchanged; (3) the only possible insertion is the successfully
translated original text; (4) repeating a successful non-blank call is a pure
cache hit: same value, same cache, zero service calls; (5) for non-blank text
within the budget, two successive calls from an empty cache perform exactly
one service call in total. -/
theorem claim2_cache_exact_key_once :
    (∀ (cache : List (List Char × List Char)) (s v : List Char),
      lookupC cache s = some v → (s, v) ∈ cache) ∧
    (∀ (svc : List Char → Option (List Char)) (mc : Nat)
        (cache : List (List Char × List Char)) (text : List Char),
      (translate_text svc mc cache text).result = none →
      (translate_text svc mc cache text).cache = cache) ∧
    (∀ (svc : List Char → Option (List Char)) (mc : Nat)
        (cache : List (List Char × List Char)) (text : List Char),
      (translate_text svc mc cache text).cache = cache ∨
        ∃ t, (translate_text svc mc cache text).result = some t ∧
          (translate_text svc mc cache text).cache = (text, t) :: cache) ∧
    (∀ (svc : List Char → Option (List Char)) (mc : Nat)
        (cache : List (List Char × List Char)) (text t : List Char),
      pyStrip text ≠ [] →
      (translate_text svc mc cache text).result = some t →
      translate_text svc mc (translate_text svc mc cache text).cache text =
        ⟨some t, (translate_text svc mc cache text).cache, 0⟩) ∧
    (∀ (svc : List Char → Option (List Char)) (mc : Nat) (text t : List Char),
      pyStrip text ≠ [] → text.length ≤ mc → svc text = some t →
      (translate_text svc mc [] text).calls = 1 ∧
      (translate_text svc mc ((translate_text svc mc [] text).cache) text).calls = 0) := by
  refine ⟨lookupC_mem, translate_err_cache, translate_cache_shape, ?_, ?_⟩
  · intro svc mc cache text t hS hres
    cases hC : lookupC cache text with
    | some v =>
      rw [translate_text_hit svc mc hS hC] at hres ⊢
      simp only at hres
      cases hres
      exact translate_text_hit svc mc hS hC
    | none =>
      rcases hT : translateCore svc mc text with ⟨r, n⟩
      cases r with
      | none => rw [translate_text_err hS hC hT] at hres; simp at hres
      | some u =>
        rw [translate_text_ok hS hC hT] at hres ⊢
        simp only [Option.some.injEq] at hres
        subst hres
        exact translate_text_hit svc mc hS (lookupC_cons_self _ _ _)
  · intro svc mc text t hS hlen hsvc
    have hT : translateCore svc mc text = (some t, 1) := by
      simp [translateCore, hlen, hsvc]
    have h1 : translate_text svc mc [] text = ⟨some t, [(text, t)], 1⟩ :=
      translate_text_ok hS (by simp [lookupC]) hT
    rw [h1]
    exact ⟨rfl, by rw [translate_text_hit svc mc hS (lookupC_cons_self _ _ _)]⟩

/-- Witness for `claim2_cache_exact_key_once`: conjunct (5) at a concrete
short text and an identity service. -/
theorem claim2_cache_exact_key_once_witness :
    (translate_text (fun s => some s) 9 [] "Hello.".data).calls = 1 ∧
      (translate_text (fun s => some s) 9
        ((translate_text (fun s => some s) 9 [] "Hello.".data).cache) "Hello.".data).calls = 0 :=
  claim2_cache_exact_key_once.2.2.2.2 (fun s => some s) 9 "Hello.".data "Hello.".data
    (by decide) (by decide) rfl

theorem translateChunks_total (svc : List Char → Option (List Char))
    (f : List Char → List Char) (h : ∀ c, svc c = some (f c)) :
    ∀ cs, translateChunks svc cs = (some (cs.map f).flatten, cs.length) := by
  intro cs
  induction cs with
  | nil => rfl
  | cons c cs ih => simp [translateChunks, h c, ih]

/-- Counterexample for C6 as stated: for a non-whitespace text that is already
cached, `translate_text` performs zero logical translation calls and inserts
nothing, not the claimed exactly-one call with insertion — the claim holds
only for text the cache does not yet contain. -/
theorem claim6_cached_counterexample :
    pyStrip "Hi.".data ≠ [] ∧ ("Hi.".data.length ≤ 10) ∧
    (translate_text (fun s => some s) 10 [("Hi.".data, "X".data)] "Hi.".data).calls = 0 ∧
    (translate_text (fun s => some s) 10 [("Hi.".data, "X".data)] "Hi.".data).cache
      = [("Hi.".data, "X".data)] := by
  refine ⟨by decide, by decide, by decide, by decide⟩

/-- C6: for non-blank, non-cached text — (1) within the budget `translate_text`
performs exactly one logical translation call, whose outcome it returns;
(2) any successful result is stored in the cache keyed by the original
(unsplit) input text; (3) over the budget the text is split into chunks, each
chunk translated independently (one call per chunk), and the results
concatenated with no separator. -/
theorem claim6_translate_text_structure (svc : List Char → Option (List Char))
    (f : List Char → List Char) (mc : Nat) (cache : List (List Char × List Char))
    (text : List Char) (hS : pyStrip text ≠ []) (hC : lookupC cache text = none) :
    (text.length ≤ mc →
      (translate_text svc mc cache text).calls = 1 ∧
      (translate_text svc mc cache text).result = svc text) ∧
    (∀ t, (translate_text svc mc cache text).result = some t →
      (translate_text svc mc cache text).cache = (text, t) :: cache) ∧
    (¬ text.length ≤ mc → (∀ c, svc c = some (f c)) →
      (translate_text svc mc cache text).result = some ((split_text text mc).map f).flatten ∧
      (translate_text svc mc cache text).calls = (split_text text mc).length) := by
  refine ⟨?_, ?_, ?_⟩
  · intro hlen
    cases hsvc : svc text with
    | none =>
      have hT : translateCore svc mc text = (none, 1) := by
        simp [translateCore, hlen, hsvc]
      rw [translate_text_err hS hC hT]
      exact ⟨rfl, rfl⟩
    | some t =>
      have hT : translateCore svc mc text = (some t, 1) := by
        simp [translateCore, hlen, hsvc]
      rw [translate_text_ok hS hC hT]
      exact ⟨rfl, rfl⟩
  · intro t hres
    rcases hT : translateCore svc mc text with ⟨r, n⟩
    cases r with
    | none => rw [translate_text_err hS hC hT] at hres; simp at hres
    | some u =>
      rw [translate_text_ok hS hC hT] at hres ⊢
      simp only [Option.some.injEq] at hres
      rw [hres]
  · intro hlen htot
    have hT : translateCore svc mc text
        = (some ((split_text text mc).map f).flatten, (split_text text mc).length) := by
      simp only [translateCore, if_neg hlen]
      exact translateChunks_total svc f htot _
    rw [translate_text_ok hS hC hT]
    exact ⟨rfl, rfl⟩

/-- Witness for `claim6_translate_text_structure`: the chunked branch on
`"Hi. Yo."` with budget 3 — two chunks, two calls, results concatenated with
no separator. -/
theorem claim6_translate_text_structure_witness :
    (translate_text (fun s => some s) 3 [] "Hi. Yo.".data).result
        = some ((split_text "Hi. Yo.".data 3).map (fun s => s)).flatten ∧
      (translate_text (fun s => some s) 3 [] "Hi. Yo.".data).calls
        = (split_text "Hi. Yo.".data 3).length :=
  (claim6_translate_text_structure (fun s => some s) (fun s => s) 3 [] "Hi. Yo.".data
    (by decide) rfl).2.2 (by decide) (fun _ => rfl)

/-- The attempt loop of `_translate_once`.  `att i` is the outcome of the
`i`-th iteration's request/parse step: `some raw` is the raw response text
obtained (`response` or `message.content` field, already a string), `none` is
any transport, status or parse exception.  A successful attempt returns the
cleaned response with fallback to the source text; a failed attempt sleeps one
fixed interval and retries while iterations remain.  Returns (result, number
of attempts made, number of fixed-interval sleeps); a `none` result models the
final `raise RuntimeError`. -/
def tryAttempts (att : Nat → Option (List Char)) (text : List Char) :
    Nat → Nat → Option (List Char) × Nat × Nat
  | _, 0 => (none, 0, 0)
  | i, n + 1 =>
    match att i with
    | some raw => (some (cleanResponse raw text), 1, 0)
    | none =>
      match tryAttempts att text (i + 1) n with
      | (r, k, s) => (r, k + 1, s + 1)

/-- `OllamaTranslator._translate_once`: `for _ in range(self.retry + 1)`. -/
def translate_once (att : Nat → Option (List Char)) (retry : Nat) (text : List Char) :
    Option (List Char) × Nat × Nat :=
  tryAttempts att text 0 (retry + 1)

/-- `_translate_once` as the service function used by `translate_text`. -/
def svcOf (att : List Char → Nat → Option (List Char)) (retry : Nat) :
    List Char → Option (List Char) :=
  fun t => (translate_once (att t) retry t).1

theorem tryAttempts_all_fail (att : Nat → Option (List Char)) (text : List Char)
    (hfail : ∀ i, att i = none) :
    ∀ (n i : Nat), tryAttempts att text i n = (none, n, n) := by
  intro n
  induction n with
  | zero => intro i; rfl
  | succ n ih =>
    intro i
    simp [tryAttempts, hfail i, ih (i + 1)]

theorem tryAttempts_none_exhausts (att : Nat → Option (List Char)) (text : List Char) :
    ∀ (n i : Nat) (r : Option (List Char)) (k s : Nat),
      tryAttempts att text i n = (r, k, s) → r = none → k = n := by
  intro n
  induction n with
  | zero =>
    intro i r k s h _
    simp [tryAttempts] at h
    obtain ⟨-, h2, -⟩ := h
    omega
  | succ n ih =>
    intro i r k s h hr
    cases hi : att i with
    | some raw =>
      rw [show tryAttempts att text i (n + 1)
          = (some (cleanResponse raw text), 1, 0) by simp [tryAttempts, hi]] at h
      cases h
      simp at hr
    | none =>
      rcases hrec : tryAttempts att text (i + 1) n with ⟨r', k', s'⟩
      rw [show tryAttempts att text i (n + 1) = (r', k' + 1, s' + 1) by
        simp [tryAttempts, hi, hrec]] at h
      cases h
      have := ih (i + 1) _ _ _ hrec hr
      omega

theorem tryAttempts_first_ok (att : Nat → Option (List Char)) (text raw : List Char) :
    ∀ (j n i : Nat), (∀ d, d < j → att (i + d) = none) → j < n → att (i + j) = some raw →
      tryAttempts att text i n = (some (cleanResponse raw text), j + 1, j) := by
  intro j
  induction j with
  | zero =>
    intro n i _ hn hok
    cases n with
    | zero => omega
    | succ n => simp [tryAttempts, show att i = some raw by simpa using hok]
  | succ j ih =>
    intro n i hfail hn hok
    cases n with
    | zero => omega
    | succ n =>
      have h0 : att i = none := by simpa using hfail 0 (Nat.succ_pos _)
      have hrec : tryAttempts att text (i + 1) n = (some (cleanResponse raw text), j + 1, j) := by
        refine ih n (i + 1) (fun d hd => ?_) (by omega) (by
          rw [show i + 1 + j = i + (j + 1) by omega]; exact hok)
        rw [show i + 1 + d = i + (d + 1) by omega]
        exact hfail (d + 1) (by omega)
      simp [tryAttempts, h0, hrec]

/-- C7: the retry loop of a single logical translation call — (1) if every
attempt fails it makes exactly retry-budget + 1 attempts, sleeps the fixed
interval after each failure, and raises a hard error (it never silently
returns a value); (2) a failing outcome occurs only after all retry-budget + 1
attempts; (3) each failure sleeps once and retries, so a first success at
attempt `j` makes `j + 1` attempts after `j` fixed-interval sleeps and returns
the cleaned response; (4) on the error path the translation cache is left
unchanged. -/
theorem claim7_retry_policy :
    (∀ (att : Nat → Option (List Char)) (retry : Nat) (text : List Char),
      (∀ i, att i = none) →
      translate_once att retry text = (none, retry + 1, retry + 1)) ∧
    (∀ (att : Nat → Option (List Char)) (retry : Nat) (text : List Char)
        (r : Option (List Char)) (k s : Nat),
      translate_once att retry text = (r, k, s) → r = none → k = retry + 1) ∧
    (∀ (att : Nat → Option (List Char)) (retry : Nat) (text raw : List Char) (j : Nat),
      (∀ d, d < j → att d = none) → j ≤ retry → att j = some raw →
      translate_once att retry text = (some (cleanResponse raw text), j + 1, j)) ∧
    (∀ (att : List Char → Nat → Option (List Char)) (retry mc : Nat)
        (cache : List (List Char × List Char)) (text : List Char),
      (translate_text (svcOf att retry) mc cache text).result = none →
      (translate_text (svcOf att retry) mc cache text).cache = cache) := by
  refine ⟨?_, ?_, ?_, ?_⟩
  · intro att retry text hfail
    exact tryAttempts_all_fail att text hfail (retry + 1) 0
  · intro att retry text r k s h hr
    exact tryAttempts_none_exhausts att text (retry + 1) 0 r k s h hr
  · intro att retry text raw j hfail hj hok
    exact tryAttempts_first_ok att text raw j (retry + 1) 0
      (fun d hd => by simpa using hfail d hd) (by omega) (by simpa using hok)
  · intro att retry mc cache text h
    exact translate_err_cache (svcOf att retry) mc cache text h

/-- Witness for `claim7_retry_policy`: an attempt sequence that always fails,
with a retry budget of 2, makes 3 attempts, sleeps 3 times and errors out. -/
theorem claim7_retry_policy_witness :
    translate_once (fun _ => none) 2 "hi".data = (none, 3, 3) :=
  claim7_retry_policy.1 (fun _ => none) 2 "hi".data (fun _ => rfl)

/-- Inline segments: the `{"type": "text", "value": …}` /
`{"type": "img", "src": …}` dictionaries of the source. -/
inductive Seg
  | text (value : List Char)
  | img (src : List Char)
deriving DecidableEq

/-- Content-tree nodes — the closed variant set `walk` dispatches on: a bare
text node (`NavigableString`), an `<img>` tag with its `src` attribute, a
`<br>` tag, and any other tag with its ordered children. -/
inductive Node
  | text (s : List Char)
  | img (src : List Char)
  | br
  | elem (children : List Node)

mutual
/-- The recursive `walk` of `extract_inline_segments`: a text node yields its
literal string, `<img>` yields an image segment with its (possibly empty)
`src`, `<br>` yields a text segment `"\n"`, and any other tag walks its
children in order, contributing nothing itself. -/
def walkNode : Node → List Seg
  | .text s => [.text s]
  | .img src => [.img src]
  | .br => [.text ['\n']]
  | .elem cs => walkChildren cs

def walkChildren : List Node → List Seg
  | [] => []
  | n :: ns => walkNode n ++ walkChildren ns
end

/-- One iteration of the `merge_text_segments` loop: a text segment is
concatenated onto a trailing text segment, anything else is appended. -/
def pushSeg (merged : List Seg) (seg : Seg) : List Seg :=
  match seg with
  | .text v =>
    match merged.getLast? with
    | some (.text u) => merged.dropLast ++ [.text (u ++ v)]
    | _ => merged ++ [seg]
  | .img _ => merged ++ [seg]

/-- `merge_text_segments(segments)` from the source. -/
def merge_text_segments (segments : List Seg) : List Seg :=
  segments.foldl pushSeg []

/-- `extract_inline_segments(node)` from the source. -/
def extract_inline_segments (node : Node) : List Seg :=
  merge_text_segments (walkNode node)

/-- Whether a segment is a text segment. -/
def isTextSeg : Seg → Bool
  | .text _ => true
  | .img _ => false

/-- The carried string of a text segment. -/
def segText : Seg → List Char
  | .text v => v
  | .img _ => []

/-- Modelled from the spec's words for the merge post-pass: consecutive text
segments are concatenated in encounter order into one text segment; non-text
segments are barriers, kept in place and never merged across. -/
def specMerge : List Seg → List Seg
  | [] => []
  | .img s :: rest => .img s :: specMerge rest
  | .text a :: rest =>
    .text (a ++ ((rest.takeWhile isTextSeg).map segText).flatten)
      :: specMerge (rest.dropWhile isTextSeg)
termination_by l => l.length
decreasing_by
  · simp
  · simp only [List.length_cons]
    exact Nat.lt_succ_of_le (List.Sublist.length_le (List.dropWhile_sublist _))

theorem pushSeg_ne_nil (acc : List Seg) (s : Seg) : pushSeg acc s ≠ [] := by
  cases s with
  | text v =>
    unfold pushSeg
    cases h : acc.getLast? with
    | none => simp
    | some u => cases u <;> simp
  | img s => simp [pushSeg]

theorem pushSeg_append (acc₁ : List Seg) {acc₂ : List Seg} (h : acc₂ ≠ []) (s : Seg) :
    pushSeg (acc₁ ++ acc₂) s = acc₁ ++ pushSeg acc₂ s := by
  cases s with
  | img s => simp [pushSeg]
  | text v =>
    unfold pushSeg
    rw [List.getLast?_append_of_ne_nil _ h]
    cases hl : acc₂.getLast? with
    | none => simp [List.getLast?_eq_none_iff.mp hl] at h
    | some u =>
      cases u with
      | text w => simp [List.dropLast_append_of_ne_nil _ h, List.append_assoc]
      | img s => simp [List.append_assoc]

theorem foldl_push_shift (l : List Seg) : ∀ (acc₁ acc₂ : List Seg), acc₂ ≠ [] →
    l.foldl pushSeg (acc₁ ++ acc₂) = acc₁ ++ l.foldl pushSeg acc₂ := by
  induction l with
  | nil => intro acc₁ acc₂ _; rfl
  | cons s l ih =>
    intro acc₁ acc₂ h
    rw [List.foldl_cons, List.foldl_cons, pushSeg_append _ h,
      ih acc₁ _ (pushSeg_ne_nil acc₂ s)]

theorem pushSeg_nil (s : Seg) : pushSeg [] s = [s] := by
  cases s <;> rfl

/-- Joined text of a run of segments. -/
def joinTexts (run : List Seg) : List Char := (run.map segText).flatten

theorem foldl_push_textRun : ∀ (rest : List Seg) (a : List Char),
    List.foldl pushSeg [Seg.text a] rest
      = Seg.text (a ++ joinTexts (rest.takeWhile isTextSeg))
          :: List.foldl pushSeg [] (rest.dropWhile isTextSeg) := by
  intro rest
  induction rest with
  | nil => intro a; simp [joinTexts]
  | cons s rest ih =>
    intro a
    cases s with
    | text b =>
      rw [List.foldl_cons,
        show pushSeg [Seg.text a] (Seg.text b) = [Seg.text (a ++ b)] from rfl, ih,
        List.takeWhile_cons_of_pos (by simp [isTextSeg]),
        List.dropWhile_cons_of_pos (by simp [isTextSeg])]
      simp [joinTexts, segText]
    | img q =>
      rw [List.foldl_cons,
        show pushSeg [Seg.text a] (Seg.img q) = [Seg.text a] ++ [Seg.img q] from rfl,
        foldl_push_shift _ _ _ (by simp),
        List.takeWhile_cons_of_neg (by simp [isTextSeg]),
        List.dropWhile_cons_of_neg (by simp [isTextSeg])]
      rw [List.foldl_cons, pushSeg_nil]
      simp [joinTexts]

theorem merge_eq_specMerge : ∀ l : List Seg, merge_text_segments l = specMerge l := by
  intro l
  induction l using specMerge.induct with
  | case1 => rw [show specMerge [] = [] by simp [specMerge]]; rfl
  | case2 s rest ih =>
    rw [show specMerge (Seg.img s :: rest) = Seg.img s :: specMerge rest by
      simp [specMerge]]
    unfold merge_text_segments
    cases rest with
    | nil => rw [show specMerge [] = [] by simp [specMerge]]; rfl
    | cons x rest' =>
      rw [List.foldl_cons, pushSeg_nil, List.foldl_cons,
        show pushSeg [Seg.img s] x = [Seg.img s] ++ [x] by cases x <;> rfl,
        foldl_push_shift _ _ _ (by simp)]
      rw [← ih]
      unfold merge_text_segments
      rw [List.foldl_cons, pushSeg_nil]
      rfl
  | case3 a rest ih =>
    rw [show specMerge (Seg.text a :: rest)
        = Seg.text (a ++ ((rest.takeWhile isTextSeg).map segText).flatten)
            :: specMerge (rest.dropWhile isTextSeg) by simp [specMerge]]
    unfold merge_text_segments
    rw [List.foldl_cons, pushSeg_nil, foldl_push_textRun, ← ih]
    rfl

/-- C3: segment extraction walks the subtree in document order (text nodes
contribute their literal string, image nodes their `src`, `<br>` a `"\n"`
text segment, every other node only its children), then merges consecutive
text segments by concatenation in encounter order with non-text segments as
barriers — `merge_text_segments` coincides with the spec's grouping pass on
every segment list; a block [wrapped "A", image, doubly wrapped "B"] extracts
to exactly [text "A", image, text "B"]; and two directly adjacent text nodes
merge into a single text segment. -/
theorem claim3_segment_extraction :
    (∀ l : List Seg, merge_text_segments l = specMerge l) ∧
    extract_inline_segments
        (.elem [.elem [.text "A".data], .img "ref".data, .elem [.elem [.text "B".data]]])
      = [.text "A".data, .img "ref".data, .text "B".data] ∧
    (∀ a b : List Char,
      extract_inline_segments (.elem [.text a, .text b]) = [.text (a ++ b)]) := by
  refine ⟨merge_eq_specMerge, by decide, fun a b => ?_⟩
  simp [extract_inline_segments, walkNode, walkChildren, merge_text_segments, pushSeg]

/-- `cell.get_text(" ", strip=True)`: the cell's text fragments, each
stripped, the non-blank ones joined with single spaces. -/
def getTextStrip (frags : List (List Char)) : List Char := normContent frags

/-- Join cell texts with the fixed tab column separator (`"\t".join(cells)`). -/
def joinTab : List (List Char) → List Char
  | [] => []
  | [c] => c
  | c :: cs => c ++ '\t' :: joinTab cs

/-- The non-blank cell texts of one row, in order (the `if cell_text:` filter
of `process_table`). -/
def rowCells (row : List (List (List Char))) : List (List Char) :=
  (row.map getTextStrip).filter (fun t => !t.isEmpty)

/-- `process_table(tag, doc, translator)`: for each row, translate every
non-blank cell text and join them with tabs into one paragraph line; a row
with no non-blank cell adds no line.  `tr` abstracts
`translator.translate_text`; a table is a list of rows, a row a list of cells,
a cell a list of text fragments. -/
def process_table (tr : List Char → List Char)
    (rows : List (List (List (List Char)))) : List (List Char) :=
  rows.filterMap (fun row =>
    let cells := (rowCells row).map tr
    if cells.isEmpty then none else some (joinTab cells))

/-- C8: table rendering emits exactly one tab-joined line of individually
translated cell texts per row that has a non-blank cell, skipping all-blank
rows; in particular rows `[["a","b"],["","  "]]` yield the single line
`tr("a") ++ "\t" ++ tr("b")` for every translator `tr`. -/
theorem claim8_table_rows :
    (∀ (tr : List Char → List Char) (rows : List (List (List (List Char)))),
      process_table tr rows
        = ((rows.map rowCells).filter (fun cs => !cs.isEmpty)).map
            (fun cs => joinTab (cs.map tr))) ∧
    (∀ tr : List Char → List Char,
      process_table tr [[["a".data], ["b".data]], [["".data], ["  ".data]]]
        = [tr "a".data ++ '\t' :: tr "b".data]) := by
  constructor
  · intro tr rows
    induction rows with
    | nil => rfl
    | cons row rows ih =>
      by_cases h : (rowCells row).isEmpty
      · have h0 : rowCells row = [] := List.isEmpty_iff.mp h
        simp [process_table, List.filterMap_cons, List.filter_cons, h0, ← ih,
          process_table]
      · have h0 : rowCells row ≠ [] := by simpa [List.isEmpty_iff] using h
        have h1 : (((rowCells row).map tr).isEmpty) = false := by
          simp [List.isEmpty_iff, h0]
        simp only [process_table, List.filterMap_cons, h1, List.map_cons,
          List.filter_cons, h, Bool.not_false, if_false]
        simp only [process_table] at ih
        rw [ih]
        simp [h]
  · intro tr
    rfl

/-- Split on `'/'` (Python `path.split("/")`). -/
def splitOnSlash : List Char → List (List Char)
  | [] => [[]]
  | c :: rest =>
    if c = '/' then [] :: splitOnSlash rest
    else
      match splitOnSlash rest with
      | [] => [[c]]
      | l :: ls => (c :: l) :: ls

/-- Join with `'/'` (Python `"/".join`). -/
def joinSlash : List (List Char) → List Char
  | [] => []
  | [l] => l
  | l :: ls => l ++ '/' :: joinSlash ls

/-- The component loop of `posixpath.normpath`: drop empty and `"."`
components; keep a component unless it is a `".."` that cancels a previous
real component (with the CPython guards for relative prefixes and leading
`".."` runs); the accumulator is kept reversed. -/
def normLoop (ini : Nat) : List (List Char) → List (List Char) → List (List Char)
  | [], acc => acc.reverse
  | comp :: comps, acc =>
    if comp = [] ∨ comp = ['.'] then normLoop ini comps acc
    else if comp ≠ ['.', '.'] ∨ (ini = 0 ∧ acc = []) ∨ acc.head? = some ['.', '.'] then
      normLoop ini comps (comp :: acc)
    else if acc ≠ [] then normLoop ini comps acc.tail
    else normLoop ini comps acc

/-- `posixpath.normpath(path)` (CPython): empty path is `"."`; one or two
leading slashes are preserved, three or more collapse to one; components are
normalized by `normLoop`; an empty result is `"."`. -/
def normpath (p : List Char) : List Char :=
  if p = [] then ['.']
  else
    let ini : Nat :=
      if leadsWith "/".data p then
        if leadsWith "//".data p ∧ ¬leadsWith "///".data p then 2 else 1
      else 0
    let path := List.replicate ini '/' ++ joinSlash (normLoop ini (splitOnSlash p) [])
    if path = [] then ['.'] else path

/-- `.lstrip("./")`: remove every leading `'.'` or `'/'` character. -/
def lstripDotSlash (p : List Char) : List Char :=
  p.dropWhile (fun c => c = '.' || c = '/')

/-- `normalize_epub_path(path)` from the source. -/
def normalize_epub_path (p : List Char) : List Char := lstripDotSlash (normpath p)

/-- `p[: p.rfind("/") + 1]` — the head slice of `posixpath.dirname`. -/
def upToLastSlash : List Char → List Char
  | [] => []
  | c :: rest =>
    match upToLastSlash rest with
    | [] => if c = '/' then ['/'] else []
    | t => c :: t

/-- `.rstrip("/")`. -/
def rstripSlash (l : List Char) : List Char :=
  (l.reverse.dropWhile (fun c => c = '/')).reverse

/-- `posixpath.dirname(p)`. -/
def dirnameP (p : List Char) : List Char :=
  let head := upToLastSlash p
  if head.any (fun c => !(c = '/')) then rstripSlash head else head

/-- `posixpath.join(a, b)` for two arguments. -/
def joinP (a b : List Char) : List Char :=
  if leadsWith "/".data b then b
  else if a = [] ∨ a.getLast? = some '/' then a ++ b
  else a ++ '/' :: b

/-- `resolve_image_src(src, doc_path)` from the source. -/
def resolve_image_src (src docPath : List Char) : Option (List Char) :=
  if src = [] ∨ leadsWith "data:".data src then none
  else some (normalize_epub_path (joinP (dirnameP docPath) src))

/-- `build_image_map`: each image item's archive name is normalized and mapped
to its extracted file path (`out` abstracts the temp-file path the bytes are
written to). -/
def build_image_map (names : List (List Char)) (out : List Char → List Char) :
    List (List Char × List Char) :=
  names.map (fun n => (normalize_epub_path n, out n))

theorem dropWhile_head_not {q : Char → Bool} : ∀ (l : List Char) (c : Char) (rest : List Char),
    l.dropWhile q = c :: rest → q c = false := by
  intro l
  induction l with
  | nil => intro c rest h; simp at h
  | cons a l ih =>
    intro c rest h
    by_cases ha : q a
    · rw [List.dropWhile_cons_of_pos ha] at h
      exact ih _ _ h
    · rw [List.dropWhile_cons_of_neg ha] at h
      cases h
      simpa using ha

/-- C10: `normalize_epub_path` is `posixpath.normpath` followed by stripping
every leading `'.'` and `'/'` character, so its result never begins with `'.'`
or `'/'` — in particular `".images/pic.png"` loses its leading dot — and both
the image-map keys and the resolved references are produced through this same
normalization, so a reference finds an image exactly when some archive name
normalizes to the same string. -/
theorem claim10_path_normalization :
    (∀ p, normalize_epub_path p = lstripDotSlash (normpath p)) ∧
    (∀ p c rest, normalize_epub_path p = c :: rest → c ≠ '.' ∧ c ≠ '/') ∧
    normalize_epub_path ".images/pic.png".data = "images/pic.png".data ∧
    (∀ src docPath, src ≠ [] → leadsWith "data:".data src = false →
      resolve_image_src src docPath
        = some (normalize_epub_path (joinP (dirnameP docPath) src))) ∧
    (∀ (names : List (List Char)) (out : List Char → List Char) (r : List Char),
      (∃ v, lookupC (build_image_map names out) r = some v) ↔
        ∃ n ∈ names, normalize_epub_path n = r) := by
  refine ⟨fun p => rfl, ?_, by decide, ?_, ?_⟩
  · intro p c rest h
    have hq := dropWhile_head_not (normpath p) c rest h
    simp only [Bool.or_eq_false_iff, decide_eq_false_iff_not] at hq
    exact hq
  · intro src docPath h1 h2
    simp [resolve_image_src, h1, h2]
  · intro names out r
    induction names with
    | nil => simp [build_image_map, lookupC]
    | cons n names ih =>
      by_cases h : normalize_epub_path n = r
      · simp [build_image_map, lookupC, h]
      · simp only [build_image_map, List.map_cons, lookupC, h, if_false, List.mem_cons]
        rw [show (names.map fun n => (normalize_epub_path n, out n)) = build_image_map names out
          from rfl, ih]
        constructor
        · rintro ⟨n', hn', hr⟩
          exact ⟨n', Or.inr hn', hr⟩
        · rintro ⟨n', hn', hr⟩
          rcases hn' with rfl | hn'
          · exact absurd hr h
          · exact ⟨n', hn', hr⟩

/-- Witness for `claim10_path_normalization`: resolving a relative image
reference against a document path goes through the shared normalization. -/
theorem claim10_path_normalization_witness :
    resolve_image_src "images/p.png".data "OEBPS/ch1.xhtml".data
      = some (normalize_epub_path (joinP (dirnameP "OEBPS/ch1.xhtml".data) "images/p.png".data)) :=
  claim10_path_normalization.2.2.2.1 "images/p.png".data "OEBPS/ch1.xhtml".data
    (by decide) (by decide)

end EpubTrans
